import Mathlib

/-!
Verification of the rainman hierarchical memory-accounting allocator
(`include/rainman/memmgr.h`).

The manager state is embedded shallowly: machine `uint64_t` values are
natural numbers reduced modulo `2^64` at every arithmetic step, pointers are
natural numbers with `0` standing for `nullptr`, and the registry (`memmap`)
is a list of records in insertion order.  The allocation, free and wipe
operations of `memmgr` are translated statement by statement from the header;
the registry primitives and the `update` counter-setter, whose definitions
live outside the header, are modelled from the specification (§3, §4.1).
-/

namespace Rainman

/-- `2^64`, the modulus of all `uint64_t` arithmetic in the source. -/
def U64 : Nat := 18446744073709551616

/-- Wrapping 64-bit addition. -/
def add64 (a b : Nat) : Nat := (a + b) % U64

/-- Wrapping 64-bit multiplication. -/
def mul64 (a b : Nat) : Nat := (a * b) % U64

/-- Wrapping 64-bit subtraction. -/
def sub64 (a b : Nat) : Nat := (a % U64 + U64 - b % U64) % U64

/-- One allocation record (`map_elem` in `memmap.h`): pointer, byte size,
element count, type tag and construction mode (`is_raw`). -/
structure MapElem where
  ptr : Nat
  alloc_size : Nat
  count : Nat
  type_name : String
  is_raw : Bool
deriving Repr, DecidableEq

/-- The observable state of one `memmgr`: the two counters, the peak budget
and the registry in insertion order. -/
structure Memmgr where
  allocation_size : Nat
  n_allocations : Nat
  peak_size : Nat
  memmap : List MapElem
deriving Repr, DecidableEq

/-- Modelled from the spec: `memmap.h` is not under `src/`; §4.1 `add(record)`
inserts a record, and `iterate()` yields records in insertion order, so
insertion appends at the tail. -/
def memmapAdd (l : List MapElem) (e : MapElem) : List MapElem := l ++ [e]

/-- Modelled from the spec: §4.1 `lookup(ptr)` is exact-match lookup by
pointer key. -/
def memmapGet : List MapElem → Nat → Option MapElem
  | [], _ => none
  | e :: rest, p => if e.ptr = p then some e else memmapGet rest p

/-- Modelled from the spec: §4.1 `remove(ptr)` removes the record with that
key if present and is a no-op otherwise (keys are unique within a registry). -/
def memmapRemove : List MapElem → Nat → List MapElem
  | [], _ => []
  | e :: rest, p => if e.ptr = p then rest else e :: memmapRemove rest p

/-- Whether the parent-side peak check of `r_malloc`/`r_new`
(`memmgr.h:51-53`, `111-113`) fires: the parent pointer is the head of the
ancestor chain, and only it is read. -/
def parentBlocks (ancestors : List Memmgr) (curr : Nat) : Bool :=
  match ancestors with
  | [] => false
  | p :: _ => decide (p.peak_size ≠ 0) && decide (p.peak_size < add64 p.allocation_size curr)

/-- The committed part of an allocation (`memmgr.h:58-68` / `118-129`): build
the record, append it to the registry, and `update` the counters.  `update`
is modelled from the spec (§3: counters updated on every insert): it stores
its two arguments into `allocation_size` and `n_allocations`. -/
def allocCommit (st : Memmgr) (curr n_elems : Nat) (tyName : String)
    (newPtr : Nat) (raw : Bool) : Memmgr :=
  let elem : MapElem :=
    { ptr := newPtr, alloc_size := curr, count := n_elems % U64,
      type_name := tyName, is_raw := raw }
  { st with memmap := memmapAdd st.memmap elem,
            allocation_size := add64 st.allocation_size curr,
            n_allocations := add64 st.n_allocations 1 }

/-- The shared body of `r_malloc` (`memmgr.h:41-73`) and `r_new`
(`memmgr.h:101-140`), which differ only in the construction mode of the
record.  The result is the post state together with `some ptr` on normal
return, or the unchanged pre state and `none` when
`PeakLimitReachedException` is thrown.  `newPtr` stands for the address the
host platform returns for the fresh block. -/
def allocCore (st : Memmgr) (ancestors : List Memmgr) (sizeofT n_elems : Nat)
    (tyName : String) (newPtr : Nat) (raw : Bool) : Memmgr × Option Nat :=
  let curr := mul64 sizeofT n_elems
  if st.peak_size ≠ 0 ∧ st.peak_size < add64 st.allocation_size curr then
    (st, none)
  else if parentBlocks ancestors curr then
    (st, none)
  else
    (allocCommit st curr n_elems tyName newPtr raw, some newPtr)

/-- `r_malloc<Type>(n_elems)` (`memmgr.h:41-73`): default-constructing
allocation. -/
def r_malloc (st : Memmgr) (ancestors : List Memmgr) (sizeofT n_elems : Nat)
    (tyName : String) (newPtr : Nat) : Memmgr × Option Nat :=
  allocCore st ancestors sizeofT n_elems tyName newPtr false

/-- `r_new<Type>(n_elems, args...)` (`memmgr.h:101-140`): raw allocation with
placement construction (`is_raw = true`). -/
def r_new (st : Memmgr) (ancestors : List Memmgr) (sizeofT n_elems : Nat)
    (tyName : String) (newPtr : Nat) : Memmgr × Option Nat :=
  allocCore st ancestors sizeofT n_elems tyName newPtr true

/-- The self-state transition of `r_free<Type>(ptr)` (`memmgr.h:76-98`)
restricted to one manager: null is a no-op, a pointer found in the own
registry has its record removed and the counters stored back decremented,
and an unknown pointer leaves the own state untouched (the fan-out to
children is `rFreeTree` below). -/
def rFreeFlat (st : Memmgr) (ptr : Nat) : Memmgr :=
  if ptr = 0 then st
  else
    match memmapGet st.memmap ptr with
    | some elem =>
        { st with allocation_size := sub64 st.allocation_size elem.alloc_size,
                  n_allocations := sub64 st.n_allocations 1,
                  memmap := memmapRemove st.memmap ptr }
    | none => st

/-- The loop of `wipe<Type>` (`memmgr.h:165-183`): iterate over the snapshot
of the registry taken at entry (`next_iter` links are captured before any
removal, spec §4.1), look each pointer up in the current registry, and remove
the record while decrementing the counters when the type tag matches. -/
def wipeLoop (t : String) : List MapElem → Memmgr → Memmgr
  | [], st => st
  | e :: next, st =>
    if e.ptr = 0 then wipeLoop t next st
    else
      match memmapGet st.memmap e.ptr with
      | some elem =>
        if elem.type_name = t then
          wipeLoop t next
            { st with
              allocation_size := sub64 st.allocation_size elem.alloc_size,
              n_allocations := sub64 st.n_allocations 1,
              memmap := memmapRemove st.memmap e.ptr }
        else wipeLoop t next st
      | none => wipeLoop t next st

/-- `wipe<Type>(deep_wipe = false)` on one manager (`memmgr.h:162-185`). -/
def wipeFlat (st : Memmgr) (t : String) : Memmgr := wipeLoop t st.memmap st

/-- A manager together with its children, as a rooted tree (the `children`
map of `memmgr.h:22`, in iteration order). -/
inductive Mgr : Type where
  | node : Memmgr → List Mgr → Mgr

/-- The own state of a manager node. -/
def Mgr.st : Mgr → Memmgr
  | .node s _ => s

/-- The children of a manager node. -/
def Mgr.children : Mgr → List Mgr
  | .node _ cs => cs

mutual

/-- `r_free<Type>(ptr)` on the whole subtree (`memmgr.h:76-98`): null is a
no-op; a pointer found in the own registry is removed there; otherwise the
call fans out to every child in iteration order. -/
def rFreeTree (ptr : Nat) : Mgr → Mgr
  | .node st cs =>
    if ptr = 0 then .node st cs
    else
      match memmapGet st.memmap ptr with
      | some elem =>
          .node { st with
                  allocation_size := sub64 st.allocation_size elem.alloc_size,
                  n_allocations := sub64 st.n_allocations 1,
                  memmap := memmapRemove st.memmap ptr } cs
      | none => .node st (rFreeChildren ptr cs)

/-- The child loop of `r_free` (`memmgr.h:91-93`): every child is visited in
iteration order. -/
def rFreeChildren (ptr : Nat) : List Mgr → List Mgr
  | [] => []
  | c :: rest => rFreeTree ptr c :: rFreeChildren ptr rest

end

mutual

/-- Whether `ptr` is a key of some registry in the subtree. -/
def containsPtr (ptr : Nat) : Mgr → Bool
  | .node st cs => (memmapGet st.memmap ptr).isSome || containsAny ptr cs

/-- Whether `ptr` is a key of some registry in one of the subtrees. -/
def containsAny (ptr : Nat) : List Mgr → Bool
  | [] => false
  | c :: rest => containsPtr ptr c || containsAny ptr rest

end

mutual

/-- `wipe<Type>(deep_wipe)` on the whole subtree (`memmgr.h:162-192`): wipe
the own registry, and when `deep_wipe` holds, wipe each child with the
default `deep_wipe = false`. -/
def wipeTree (deep : Bool) (t : String) : Mgr → Mgr
  | .node st cs =>
    if deep then .node (wipeFlat st t) (wipeChildren t cs)
    else .node (wipeFlat st t) cs

/-- The child loop of a deep wipe (`memmgr.h:187-191`): each child is wiped
with `deep_wipe` left at its default `false`. -/
def wipeChildren (t : String) : List Mgr → List Mgr
  | [] => []
  | c :: rest => wipeTree false t c :: wipeChildren t rest

end

/-- Structural induction over manager trees. -/
theorem Mgr.inductionOn (P : Mgr → Prop)
    (h : ∀ st cs, (∀ c ∈ cs, P c) → P (.node st cs)) : ∀ m, P m
  | .node st cs => h st cs (fun c hc => Mgr.inductionOn P h c)
termination_by m => sizeOf m
decreasing_by
  have h' := List.sizeOf_lt_of_mem hc
  simp only [Mgr.node.sizeOf_spec]
  omega

/-! ### Arithmetic helper lemmas -/

theorem add64_eq_of_lt {a b : Nat} (h : a + b < U64) : add64 a b = a + b :=
  Nat.mod_eq_of_lt h

theorem mul64_eq_of_lt {a b : Nat} (h : a * b < U64) : mul64 a b = a * b :=
  Nat.mod_eq_of_lt h

theorem sub64_add64_cancel {a c : Nat} (ha : a < U64) (hc : c < U64) :
    sub64 (add64 a c) c = a := by
  unfold sub64 add64 U64 at *
  omega

/-! ### The peak-limit check (claims C1, C2) -/

theorem allocCore_snd_none_iff (st : Memmgr) (anc : List Memmgr)
    (sizeofT n_elems : Nat) (tyName : String) (newPtr : Nat) (raw : Bool) :
    (allocCore st anc sizeofT n_elems tyName newPtr raw).2 = none ↔
      ((st.peak_size ≠ 0 ∧
        st.peak_size < add64 st.allocation_size (mul64 sizeofT n_elems)) ∨
       parentBlocks anc (mul64 sizeofT n_elems) = true) := by
  simp only [allocCore]
  split_ifs with h1 h2 <;> simp_all

theorem parentBlocks_iff (anc : List Memmgr) (curr : Nat) :
    parentBlocks anc curr = true ↔
      ∃ p rest, anc = p :: rest ∧ p.peak_size ≠ 0 ∧
        p.peak_size < add64 p.allocation_size curr := by
  cases anc with
  | nil => simp [parentBlocks]
  | cons p rest => simp [parentBlocks]

/-- C1: an allocation (`r_malloc` or `r_new`, both are `allocCore`) raises
`PeakLimitReached` iff the own peak check or the immediate parent's peak
check fires — with `need = sizeof(T) * n_elems` — and ancestors beyond the
head of the chain never affect the result. -/
theorem alloc_peak_check_iff (st : Memmgr) (anc : List Memmgr)
    (sizeofT n_elems : Nat) (tyName : String) (newPtr : Nat) (raw : Bool)
    (hself : st.allocation_size + sizeofT * n_elems < U64)
    (hpar : ∀ p, anc.head? = some p →
      p.allocation_size + sizeofT * n_elems < U64) :
    ((allocCore st anc sizeofT n_elems tyName newPtr raw).2 = none ↔
      (st.peak_size ≠ 0 ∧
        st.allocation_size + sizeofT * n_elems > st.peak_size) ∨
      (∃ p rest, anc = p :: rest ∧ p.peak_size ≠ 0 ∧
        p.allocation_size + sizeofT * n_elems > p.peak_size)) ∧
    (∀ p rest rest',
      allocCore st (p :: rest) sizeofT n_elems tyName newPtr raw =
      allocCore st (p :: rest') sizeofT n_elems tyName newPtr raw) := by
  have hmul : mul64 sizeofT n_elems = sizeofT * n_elems :=
    mul64_eq_of_lt (by omega)
  have hadd : add64 st.allocation_size (mul64 sizeofT n_elems) =
      st.allocation_size + sizeofT * n_elems := by
    rw [hmul]; exact add64_eq_of_lt hself
  constructor
  · rw [allocCore_snd_none_iff, parentBlocks_iff, hadd]
    constructor
    · rintro (h | ⟨p, rest, hrest, hp0, hplt⟩)
      · exact Or.inl ⟨h.1, by omega⟩
      · refine Or.inr ⟨p, rest, hrest, hp0, ?_⟩
        have hpl : p.allocation_size + sizeofT * n_elems < U64 :=
          hpar p (by rw [hrest]; rfl)
        rw [hmul, add64_eq_of_lt hpl] at hplt
        omega
    · rintro (h | ⟨p, rest, hrest, hp0, hplt⟩)
      · exact Or.inl ⟨h.1, by omega⟩
      · refine Or.inr ⟨p, rest, hrest, hp0, ?_⟩
        have hpl : p.allocation_size + sizeofT * n_elems < U64 :=
          hpar p (by rw [hrest]; rfl)
        rw [hmul, add64_eq_of_lt hpl]
        omega
  · intro p rest rest'
    simp [allocCore, parentBlocks]

/-- C2: when an allocation fails with `PeakLimitReached`, the manager state
is unchanged — counters keep their pre-call values and no record is inserted
into the registry. -/
theorem alloc_fail_no_side_effect (st : Memmgr) (anc : List Memmgr)
    (sizeofT n_elems : Nat) (tyName : String) (newPtr : Nat) (raw : Bool)
    (h : (allocCore st anc sizeofT n_elems tyName newPtr raw).2 = none) :
    (allocCore st anc sizeofT n_elems tyName newPtr raw).1 = st ∧
    (allocCore st anc sizeofT n_elems tyName newPtr raw).1.allocation_size =
      st.allocation_size ∧
    (allocCore st anc sizeofT n_elems tyName newPtr raw).1.n_allocations =
      st.n_allocations ∧
    (allocCore st anc sizeofT n_elems tyName newPtr raw).1.memmap =
      st.memmap := by
  simp only [allocCore] at h ⊢
  split_ifs at h ⊢ <;> simp_all

/-- A manager with a peak budget of 10 bytes and nothing live. -/
def exPeak10 : Memmgr :=
  { allocation_size := 0, n_allocations := 0, peak_size := 10, memmap := [] }

/-- Witness for C1 at a concrete refused allocation of 20 bytes against a
10-byte budget with no parent. -/
theorem alloc_peak_check_iff_witness :
    ((allocCore exPeak10 [] 20 1 "c" 7 false).2 = none ↔
      (exPeak10.peak_size ≠ 0 ∧
        exPeak10.allocation_size + 20 * 1 > exPeak10.peak_size) ∨
      (∃ p rest, ([] : List Memmgr) = p :: rest ∧ p.peak_size ≠ 0 ∧
        p.allocation_size + 20 * 1 > p.peak_size)) ∧
    (∀ p rest rest',
      allocCore exPeak10 (p :: rest) 20 1 "c" 7 false =
      allocCore exPeak10 (p :: rest') 20 1 "c" 7 false) :=
  alloc_peak_check_iff exPeak10 [] 20 1 "c" 7 false (by decide)
    (fun p hp => Option.noConfusion hp)

/-- A manager with a peak budget of 8 bytes and nothing live. -/
def exPeak8 : Memmgr :=
  { allocation_size := 0, n_allocations := 0, peak_size := 8, memmap := [] }

/-- Witness for C2 at a concrete refused allocation. -/
theorem alloc_fail_no_side_effect_witness :
    (allocCore exPeak8 [] 100 1 "c" 7 false).1 = exPeak8 ∧
    (allocCore exPeak8 [] 100 1 "c" 7 false).1.allocation_size =
      exPeak8.allocation_size ∧
    (allocCore exPeak8 [] 100 1 "c" 7 false).1.n_allocations =
      exPeak8.n_allocations ∧
    (allocCore exPeak8 [] 100 1 "c" 7 false).1.memmap = exPeak8.memmap :=
  alloc_fail_no_side_effect exPeak8 [] 100 1 "c" 7 false (by decide)

/-- A manager with a peak budget of 100 bytes and nothing live. -/
def exPeak100 : Memmgr :=
  { allocation_size := 0, n_allocations := 0, peak_size := 100, memmap := [] }

/-- C10: the byte size is `sizeof(T) * n` in wrapping 64-bit arithmetic.
With `sizeof(T) = 2` and `n = 2^63` the product wraps to `0`, the budget
check passes although the true size `2^64` exceeds the 100-byte peak, and
the allocation succeeds recording a byte size of `0`. -/
theorem overflow_wrapped_alloc :
    2 * 9223372036854775808 > exPeak100.peak_size ∧
    mul64 2 9223372036854775808 = 0 ∧
    (r_malloc exPeak100 [] 2 9223372036854775808 "s" 1).2 = some 1 ∧
    (r_malloc exPeak100 [] 2 9223372036854775808 "s" 1).1.allocation_size
      = 0 ∧
    ((r_malloc exPeak100 [] 2 9223372036854775808 "s" 1).1.memmap.map
      MapElem.alloc_size) = [0] := by
  decide

/-! ### Sequences of allocations (claim C3) -/

/-- The arguments of one allocation call. -/
structure AllocReq where
  raw : Bool
  anc : List Memmgr
  sizeofT : Nat
  n_elems : Nat
  tyName : String
  newPtr : Nat
deriving Repr, DecidableEq

/-- Run a list of allocation calls on one manager; a refused call leaves the
state unchanged. -/
def runAllocs (st : Memmgr) : List AllocReq → Memmgr
  | [] => st
  | r :: rest =>
    runAllocs (allocCore st r.anc r.sizeofT r.n_elems r.tyName r.newPtr r.raw).1 rest

theorem allocCore_peak_eq (st : Memmgr) (anc : List Memmgr)
    (sizeofT n_elems : Nat) (tyName : String) (newPtr : Nat) (raw : Bool) :
    (allocCore st anc sizeofT n_elems tyName newPtr raw).1.peak_size =
      st.peak_size := by
  simp only [allocCore]
  split_ifs <;> simp [allocCommit]

theorem allocCore_le_peak (st : Memmgr) (anc : List Memmgr)
    (sizeofT n_elems : Nat) (tyName : String) (newPtr : Nat) (raw : Bool)
    (hB : st.peak_size ≠ 0) (h0 : st.allocation_size ≤ st.peak_size) :
    (allocCore st anc sizeofT n_elems tyName newPtr raw).1.allocation_size ≤
      st.peak_size := by
  simp only [allocCore]
  split_ifs with h1 h2
  · exact h0
  · exact h0
  · simp only [allocCommit]
    have : ¬ st.peak_size < add64 st.allocation_size (mul64 sizeofT n_elems) := by
      intro hlt
      exact h1 ⟨hB, hlt⟩
    omega

/-- C3: with a positive peak budget `B`, a sequence of allocation calls on
one manager alone keeps its peak unchanged and never drives
`allocation_size` above `B` (refused calls change nothing). -/
theorem peak_never_exceeded (st : Memmgr) (rs : List AllocReq)
    (hB : st.peak_size ≠ 0) (h0 : st.allocation_size ≤ st.peak_size) :
    (runAllocs st rs).peak_size = st.peak_size ∧
    (runAllocs st rs).allocation_size ≤ st.peak_size := by
  induction rs generalizing st with
  | nil => exact ⟨rfl, h0⟩
  | cons r rest ih =>
    have hpeak := allocCore_peak_eq st r.anc r.sizeofT r.n_elems r.tyName r.newPtr r.raw
    have hle := allocCore_le_peak st r.anc r.sizeofT r.n_elems r.tyName r.newPtr r.raw hB h0
    have := ih (allocCore st r.anc r.sizeofT r.n_elems r.tyName r.newPtr r.raw).1
      (by rw [hpeak]; exact hB) (by rw [hpeak]; exact hle)
    simpa [runAllocs, hpeak] using this

/-- Witness for C3: two 6-byte allocations against a 10-byte budget — the
second is refused and the counter stays at 6 ≤ 10. -/
theorem peak_never_exceeded_witness :
    (runAllocs exPeak10
      [⟨false, [], 6, 1, "c", 1⟩, ⟨false, [], 6, 1, "c", 2⟩]).peak_size =
        exPeak10.peak_size ∧
    (runAllocs exPeak10
      [⟨false, [], 6, 1, "c", 1⟩, ⟨false, [], 6, 1, "c", 2⟩]).allocation_size ≤
        exPeak10.peak_size :=
  peak_never_exceeded exPeak10 _ (by decide) (by decide)

/-! ### Registry lemmas -/

theorem u64_pos : 0 < U64 := by decide

theorem mul64_lt (a b : Nat) : mul64 a b < U64 := Nat.mod_lt _ u64_pos

theorem sub64_eq_of_le {a b : Nat} (hb : b ≤ a) (ha : a < U64) :
    sub64 a b = a - b := by
  unfold sub64 U64 at *
  omega

theorem memmapGet_mem {l : List MapElem} {p : Nat} {e : MapElem}
    (h : memmapGet l p = some e) : e ∈ l ∧ e.ptr = p := by
  induction l with
  | nil => simp [memmapGet] at h
  | cons x rest ih =>
    by_cases hx : x.ptr = p
    · rw [memmapGet, if_pos hx] at h
      obtain rfl : x = e := by injection h
      exact ⟨List.mem_cons_self x rest, hx⟩
    · rw [memmapGet, if_neg hx] at h
      obtain ⟨h1, h2⟩ := ih h
      exact ⟨List.mem_cons_of_mem x h1, h2⟩

theorem memmapGet_eq_none {l : List MapElem} {p : Nat} :
    memmapGet l p = none ↔ ∀ e ∈ l, e.ptr ≠ p := by
  induction l with
  | nil => simp [memmapGet]
  | cons x rest ih =>
    by_cases hx : x.ptr = p <;> simp [memmapGet, hx, ih]

theorem memmapGet_split {l : List MapElem} {p : Nat} {e : MapElem}
    (h : memmapGet l p = some e) :
    ∃ pfx suf, l = pfx ++ e :: suf ∧ (∀ x ∈ pfx, x.ptr ≠ p) ∧
      memmapRemove l p = pfx ++ suf := by
  induction l with
  | nil => simp [memmapGet] at h
  | cons x rest ih =>
    by_cases hx : x.ptr = p
    · rw [memmapGet, if_pos hx] at h
      obtain rfl : x = e := by injection h
      exact ⟨[], rest, rfl, by simp, by rw [memmapRemove, if_pos hx]; rfl⟩
    · rw [memmapGet, if_neg hx] at h
      obtain ⟨pfx, suf, hl, hpfx, hrem⟩ := ih h
      refine ⟨x :: pfx, suf, by rw [hl]; rfl, ?_, ?_⟩
      · intro y hy
        rcases List.mem_cons.mp hy with rfl | hy'
        · exact hx
        · exact hpfx y hy'
      · rw [memmapRemove, if_neg hx, hrem]
        rfl

theorem memmapGet_append (pfx : List MapElem) (e : MapElem)
    (suf : List MapElem) (h : ∀ x ∈ pfx, x.ptr ≠ e.ptr) :
    memmapGet (pfx ++ e :: suf) e.ptr = some e := by
  induction pfx with
  | nil => simp [memmapGet]
  | cons x rest ih =>
    rw [List.cons_append, memmapGet, if_neg (h x (List.mem_cons_self x rest))]
    exact ih (fun y hy => h y (List.mem_cons_of_mem x hy))

/-- The total byte size of a registry, `Σ record.byte_size`. -/
def sumSizes : List MapElem → Nat
  | [] => 0
  | e :: rest => e.alloc_size + sumSizes rest

theorem sumSizes_append (l1 l2 : List MapElem) :
    sumSizes (l1 ++ l2) = sumSizes l1 + sumSizes l2 := by
  induction l1 with
  | nil => simp [sumSizes]
  | cons e rest ih => simp [sumSizes, ih]; omega

/-- The quiescent-state invariant of one manager (spec §3): the counters
agree with the registry, fit in 64 bits without having wrapped, pointer keys
are unique, and no record holds the null pointer. -/
structure Inv (st : Memmgr) : Prop where
  size_eq : st.allocation_size = sumSizes st.memmap
  count_eq : st.n_allocations = st.memmap.length
  size_lt : sumSizes st.memmap < U64
  count_lt : st.memmap.length < U64
  nodup : (st.memmap.map MapElem.ptr).Nodup
  ptr_ne : ∀ e ∈ st.memmap, e.ptr ≠ 0

/-! ### Free (claims C6, C7) -/

/-- C6: freeing a live pointer `ptr` with record `e` removes it from the
registry (lookup then fails) and decrements the counters by exactly
`e.alloc_size` and `1`. -/
theorem free_removes_exactly (st : Memmgr) (ptr : Nat) (e : MapElem)
    (hInv : Inv st) (hget : memmapGet st.memmap ptr = some e) :
    memmapGet (rFreeFlat st ptr).memmap ptr = none ∧
    (rFreeFlat st ptr).allocation_size = st.allocation_size - e.alloc_size ∧
    (rFreeFlat st ptr).n_allocations = st.n_allocations - 1 := by
  obtain ⟨hmem, hptr⟩ := memmapGet_mem hget
  have hptr0 : ptr ≠ 0 := hptr ▸ hInv.ptr_ne e hmem
  obtain ⟨pfx, suf, hl, hpfx, hrem⟩ := memmapGet_split hget
  have hsum : sumSizes st.memmap = sumSizes pfx + e.alloc_size + sumSizes suf := by
    rw [hl, sumSizes_append]; simp [sumSizes]; omega
  have hlen : st.memmap.length = pfx.length + 1 + suf.length := by
    rw [hl]; simp; omega
  have hnd := hInv.nodup
  rw [hl] at hnd
  simp only [List.map_append, List.map_cons] at hnd
  have hsuf : ∀ x ∈ suf, x.ptr ≠ ptr := by
    intro x hx hxe
    have hme : e.ptr ∈ suf.map MapElem.ptr :=
      List.mem_map.mpr ⟨x, hx, by rw [hxe, hptr]⟩
    have hcons : (e.ptr :: suf.map MapElem.ptr).Nodup :=
      (List.nodup_append.mp hnd).2.1
    exact (List.nodup_cons.mp hcons).1 hme
  simp only [rFreeFlat, if_neg hptr0, hget]
  refine ⟨?_, ?_, ?_⟩
  · rw [hrem]
    exact memmapGet_eq_none.mpr (fun x hx =>
      (List.mem_append.mp hx).elim (hpfx x) (hsuf x))
  · exact sub64_eq_of_le (by rw [hInv.size_eq]; omega)
      (by rw [hInv.size_eq]; exact hInv.size_lt)
  · exact sub64_eq_of_le (by rw [hInv.count_eq, hlen]; omega)
      (by rw [hInv.count_eq]; exact hInv.count_lt)

/-- A manager holding one 8-byte record of two elements at pointer 5. -/
def exOne : Memmgr :=
  { allocation_size := 8, n_allocations := 1, peak_size := 0,
    memmap := [{ ptr := 5, alloc_size := 8, count := 2, type_name := "i",
                 is_raw := false }] }

/-- Witness for C6 at a concrete one-record manager. -/
theorem free_removes_exactly_witness :
    memmapGet (rFreeFlat exOne 5).memmap 5 = none ∧
    (rFreeFlat exOne 5).allocation_size = exOne.allocation_size - 8 ∧
    (rFreeFlat exOne 5).n_allocations = exOne.n_allocations - 1 :=
  free_removes_exactly exOne 5
    { ptr := 5, alloc_size := 8, count := 2, type_name := "i", is_raw := false }
    ⟨by decide, by decide, by decide, by decide, by decide, by decide⟩
    (by decide)

theorem allocCore_success (st : Memmgr) (anc : List Memmgr)
    (sizeofT n_elems : Nat) (tyName : String) (newPtr : Nat) (raw : Bool)
    (h : (allocCore st anc sizeofT n_elems tyName newPtr raw).2 ≠ none) :
    (allocCore st anc sizeofT n_elems tyName newPtr raw).1 =
      allocCommit st (mul64 sizeofT n_elems) n_elems tyName newPtr raw := by
  simp only [allocCore] at h ⊢
  split_ifs at h ⊢ <;> simp_all

/-- C7: a successful allocation followed by a free of the returned pointer
restores both counters to their pre-allocation values. -/
theorem alloc_free_roundtrip (st : Memmgr) (anc : List Memmgr)
    (sizeofT n_elems : Nat) (tyName : String) (newPtr : Nat) (raw : Bool)
    (hp : newPtr ≠ 0) (hfresh : memmapGet st.memmap newPtr = none)
    (ha : st.allocation_size < U64) (hn : st.n_allocations < U64)
    (hsucc : (allocCore st anc sizeofT n_elems tyName newPtr raw).2 ≠ none) :
    (rFreeFlat (allocCore st anc sizeofT n_elems tyName newPtr raw).1
        newPtr).allocation_size = st.allocation_size ∧
    (rFreeFlat (allocCore st anc sizeofT n_elems tyName newPtr raw).1
        newPtr).n_allocations = st.n_allocations := by
  rw [allocCore_success st anc sizeofT n_elems tyName newPtr raw hsucc]
  have hget : memmapGet
      (allocCommit st (mul64 sizeofT n_elems) n_elems tyName newPtr raw).memmap
      newPtr =
      some ⟨newPtr, mul64 sizeofT n_elems, n_elems % U64, tyName, raw⟩ := by
    simp only [allocCommit, memmapAdd]
    exact memmapGet_append st.memmap _ []
      (fun x hx => memmapGet_eq_none.mp hfresh x hx)
  simp only [allocCommit, memmapAdd] at hget
  simp only [rFreeFlat, if_neg hp, allocCommit, memmapAdd, hget]
  constructor
  · exact sub64_add64_cancel ha (mul64_lt sizeofT n_elems)
  · exact sub64_add64_cancel hn (by decide)

/-- A manager with nothing live and no peak. -/
def exEmpty : Memmgr :=
  { allocation_size := 0, n_allocations := 0, peak_size := 0, memmap := [] }

/-- Witness for C7: allocate 10 elements of a 4-byte type on an empty
manager and free the pointer — both counters return to 0. -/
theorem alloc_free_roundtrip_witness :
    (rFreeFlat (allocCore exEmpty [] 4 10 "i" 1 false).1 1).allocation_size =
      exEmpty.allocation_size ∧
    (rFreeFlat (allocCore exEmpty [] 4 10 "i" 1 false).1 1).n_allocations =
      exEmpty.n_allocations :=
  alloc_free_roundtrip exEmpty [] 4 10 "i" 1 false (by decide) (by decide)
    (by decide) (by decide) (by decide)

/-! ### Wipe (claim C8) -/

theorem memmapRemove_append (pfx : List MapElem) (e : MapElem)
    (suf : List MapElem) (h : ∀ x ∈ pfx, x.ptr ≠ e.ptr) :
    memmapRemove (pfx ++ e :: suf) e.ptr = pfx ++ suf := by
  induction pfx with
  | nil => simp [memmapRemove]
  | cons x rest ih =>
    rw [List.cons_append, memmapRemove, if_neg (h x (List.mem_cons_self x rest)),
      ih (fun y hy => h y (List.mem_cons_of_mem x hy))]
    rfl

theorem nodup_split (pfx : List MapElem) (e : MapElem) (suf : List MapElem)
    (h : ((pfx ++ e :: suf).map MapElem.ptr).Nodup) :
    (∀ x ∈ pfx, x.ptr ≠ e.ptr) ∧ (∀ x ∈ suf, x.ptr ≠ e.ptr) ∧
    ((pfx ++ suf).map MapElem.ptr).Nodup := by
  simp only [List.map_append, List.map_cons] at h ⊢
  rw [List.nodup_append] at h
  obtain ⟨h1, h2, h3⟩ := h
  rw [List.nodup_cons] at h2
  refine ⟨?_, ?_, ?_⟩
  · intro x hx hxe
    exact h3 (List.mem_map.mpr ⟨x, hx, rfl⟩)
      (by rw [hxe]; exact List.mem_cons_self _ _)
  · intro x hx hxe
    exact h2.1 (List.mem_map.mpr ⟨x, hx, hxe⟩)
  · rw [List.nodup_append]
    exact ⟨h1, h2.2, fun a ha hb => h3 ha (List.mem_cons_of_mem _ hb)⟩

theorem sumSizes_filter (t : String) (l : List MapElem) :
    sumSizes (l.filter (fun e => decide (e.type_name = t))) +
    sumSizes (l.filter (fun e => !decide (e.type_name = t))) = sumSizes l := by
  induction l with
  | nil => simp [sumSizes]
  | cons e rest ih =>
    by_cases hty : e.type_name = t <;>
      simp [List.filter_cons, hty, sumSizes] <;> omega

theorem length_filter_split (t : String) (l : List MapElem) :
    (l.filter (fun e => decide (e.type_name = t))).length +
    (l.filter (fun e => !decide (e.type_name = t))).length = l.length := by
  induction l with
  | nil => simp
  | cons e rest ih =>
    by_cases hty : e.type_name = t <;>
      simp [List.filter_cons, hty] <;> omega

theorem wipeLoop_spec (t : String) :
    ∀ (rest pfx : List MapElem) (st : Memmgr),
      st.memmap = pfx ++ rest →
      ((pfx ++ rest).map MapElem.ptr).Nodup →
      (∀ e ∈ pfx ++ rest, e.ptr ≠ 0) →
      st.allocation_size = sumSizes (pfx ++ rest) →
      sumSizes (pfx ++ rest) < U64 →
      st.n_allocations = (pfx ++ rest).length →
      (pfx ++ rest).length < U64 →
      wipeLoop t rest st =
        { allocation_size := sumSizes pfx +
            sumSizes (rest.filter (fun e => !decide (e.type_name = t))),
          n_allocations := pfx.length +
            (rest.filter (fun e => !decide (e.type_name = t))).length,
          peak_size := st.peak_size,
          memmap := pfx ++ rest.filter (fun e => !decide (e.type_name = t)) } := by
  intro rest
  induction rest with
  | nil =>
    intro pfx st hmm hnd hne hsz hszlt hct hctlt
    simp only [List.append_nil] at hmm hsz hct
    cases st
    simp_all [wipeLoop, sumSizes]
  | cons e rest' ih =>
    intro pfx st hmm hnd hne hsz hszlt hct hctlt
    have he0 : e.ptr ≠ 0 := hne e (by simp)
    have hsplit := nodup_split pfx e rest' hnd
    have hget : memmapGet st.memmap e.ptr = some e := by
      rw [hmm]; exact memmapGet_append pfx e rest' hsplit.1
    have hsum3 : sumSizes (pfx ++ e :: rest') =
        sumSizes pfx + e.alloc_size + sumSizes rest' := by
      rw [sumSizes_append]; simp [sumSizes]; omega
    have hlen3 : (pfx ++ e :: rest').length =
        pfx.length + 1 + rest'.length := by
      simp; omega
    simp only [wipeLoop, if_neg he0, hget]
    by_cases hty : e.type_name = t
    · rw [if_pos hty]
      have hrem : memmapRemove st.memmap e.ptr = pfx ++ rest' := by
        rw [hmm]; exact memmapRemove_append pfx e rest' hsplit.1
      have hsum2 : sumSizes (pfx ++ rest') = sumSizes pfx + sumSizes rest' :=
        sumSizes_append pfx rest'
      have hih := ih pfx
        { st with allocation_size := sub64 st.allocation_size e.alloc_size,
                  n_allocations := sub64 st.n_allocations 1,
                  memmap := memmapRemove st.memmap e.ptr }
        (by simpa using hrem)
        hsplit.2.2
        (fun x hx => hne x (by
          rcases List.mem_append.mp hx with h' | h'
          · exact List.mem_append.mpr (Or.inl h')
          · exact List.mem_append.mpr (Or.inr (List.mem_cons_of_mem e h'))))
        (by
          simp only
          rw [hsz, sub64_eq_of_le (by omega) hszlt, hsum2, hsum3]
          omega)
        (by rw [hsum2]; omega)
        (by
          simp only
          rw [hct, sub64_eq_of_le (by rw [hlen3]; omega) hctlt, hlen3]
          simp)
        (by rw [hlen3] at hctlt; simp at hctlt ⊢; omega)
      rw [hih]
      simp [List.filter_cons, hty]
    · rw [if_neg hty]
      have hih := ih (pfx ++ [e]) st
        (by rw [hmm]; simp)
        (by simpa using hnd)
        (by simpa using hne)
        (by rw [hsz]; simp)
        (by simpa using hszlt)
        (by rw [hct]; simp)
        (by simpa using hctlt)
      rw [hih]
      simp [List.filter_cons, hty, sumSizes_append, sumSizes]
      refine ⟨by omega, by omega⟩

/-- C8: `wipe<T>(deep=false)` removes exactly the records whose type tag is
`T` — the registry becomes the filtered list, so records of other tags are
unchanged and still present — and the counters decrease by exactly the
total byte size and count of the removed records. -/
theorem wipe_removes_type (st : Memmgr) (t : String) (hInv : Inv st) :
    (wipeFlat st t).memmap =
      st.memmap.filter (fun e => !decide (e.type_name = t)) ∧
    (∀ e ∈ (wipeFlat st t).memmap, e.type_name ≠ t) ∧
    (wipeFlat st t).allocation_size = st.allocation_size -
      sumSizes (st.memmap.filter (fun e => decide (e.type_name = t))) ∧
    (wipeFlat st t).n_allocations = st.n_allocations -
      (st.memmap.filter (fun e => decide (e.type_name = t))).length := by
  have h := wipeLoop_spec t st.memmap [] st (by simp)
    (by simpa using hInv.nodup) (by simpa using hInv.ptr_ne)
    (by simpa using hInv.size_eq) (by simpa using hInv.size_lt)
    (by simpa using hInv.count_eq) (by simpa using hInv.count_lt)
  rw [wipeFlat, h]
  refine ⟨by simp, ?_, ?_, ?_⟩
  · intro e he
    simp only [List.nil_append] at he
    have := List.of_mem_filter he
    simpa using this
  · have := sumSizes_filter t st.memmap
    simp only [List.nil_append, sumSizes]
    rw [hInv.size_eq]
    omega
  · have := length_filter_split t st.memmap
    simp only [List.nil_append]
    rw [hInv.count_eq]
    simp
    omega

/-- A manager holding a 4-byte record of tag `a` and an 8-byte record of
tag `b`. -/
def exTwo : Memmgr :=
  { allocation_size := 12, n_allocations := 2, peak_size := 0,
    memmap := [{ ptr := 1, alloc_size := 4, count := 1, type_name := "a",
                 is_raw := false },
               { ptr := 2, alloc_size := 8, count := 1, type_name := "b",
                 is_raw := false }] }

/-- Witness for C8: wiping tag `a` from a two-record manager. -/
theorem wipe_removes_type_witness :
    (wipeFlat exTwo "a").memmap =
      exTwo.memmap.filter (fun e => !decide (e.type_name = "a")) ∧
    (∀ e ∈ (wipeFlat exTwo "a").memmap, e.type_name ≠ "a") ∧
    (wipeFlat exTwo "a").allocation_size = exTwo.allocation_size -
      sumSizes (exTwo.memmap.filter (fun e => decide (e.type_name = "a"))) ∧
    (wipeFlat exTwo "a").n_allocations = exTwo.n_allocations -
      (exTwo.memmap.filter (fun e => decide (e.type_name = "a"))).length :=
  wipe_removes_type exTwo "a"
    ⟨by decide, by decide, by decide, by decide, by decide, by decide⟩

/-! ### Operation sequences and the counter invariant (claim C4) -/

/-- One public operation on a manager: an allocation call (`r_malloc` when
`raw = false`, `r_new` when `raw = true`), a free, or a non-deep wipe. -/
inductive Op where
  | alloc (raw : Bool) (anc : List Memmgr) (sizeofT n_elems : Nat)
      (tyName : String) (newPtr : Nat)
  | free (ptr : Nat)
  | wipeOp (t : String)
deriving Repr, DecidableEq

/-- The state transition of one operation on the manager's own state. -/
def applyOp (st : Memmgr) : Op → Memmgr
  | .alloc raw anc sizeofT n_elems tyName newPtr =>
      (allocCore st anc sizeofT n_elems tyName newPtr raw).1
  | .free ptr => rFreeFlat st ptr
  | .wipeOp t => wipeFlat st t

/-- Run a list of operations left to right. -/
def runOps (st : Memmgr) : List Op → Memmgr
  | [] => st
  | op :: rest => runOps (applyOp st op) rest

/-- Environment conditions of one operation: an allocation gets a fresh
non-null address from the platform and the totals stay within 64 bits;
free and wipe need nothing. -/
def OpOKb (st : Memmgr) : Op → Bool
  | .alloc _ _ sizeofT n_elems _ newPtr =>
      decide (newPtr ≠ 0) && (memmapGet st.memmap newPtr).isNone &&
      decide (sumSizes st.memmap + mul64 sizeofT n_elems < U64) &&
      decide (st.memmap.length + 1 < U64)
  | .free _ => true
  | .wipeOp _ => true

/-- Environment conditions along a whole run. -/
def SeqOKb (st : Memmgr) : List Op → Bool
  | [] => true
  | op :: rest => OpOKb st op && SeqOKb (applyOp st op) rest

theorem allocCommit_inv (st : Memmgr) (curr n_elems : Nat) (tyName : String)
    (newPtr : Nat) (raw : Bool) (hInv : Inv st) (hp0 : newPtr ≠ 0)
    (hfresh : memmapGet st.memmap newPtr = none)
    (hsum : sumSizes st.memmap + curr < U64)
    (hlen : st.memmap.length + 1 < U64) :
    Inv (allocCommit st curr n_elems tyName newPtr raw) := by
  have hfr := memmapGet_eq_none.mp hfresh
  constructor
  · simp only [allocCommit, memmapAdd, sumSizes_append, sumSizes, add64]
    rw [hInv.size_eq]
    unfold U64 at *
    omega
  · simp only [allocCommit, memmapAdd, List.length_append, List.length_cons,
      List.length_nil, add64]
    rw [hInv.count_eq]
    unfold U64 at *
    omega
  · simp only [allocCommit, memmapAdd, sumSizes_append, sumSizes]
    omega
  · simp only [allocCommit, memmapAdd, List.length_append]
    simp
    omega
  · simp only [allocCommit, memmapAdd, List.map_append, List.map_cons,
      List.map_nil]
    rw [List.nodup_append]
    refine ⟨hInv.nodup, by simp, ?_⟩
    intro a ha hb
    simp only [List.mem_cons, List.not_mem_nil, or_false] at hb
    subst hb
    obtain ⟨x, hx, hxa⟩ := List.mem_map.mp ha
    exact hfr x hx hxa
  · intro e he
    simp only [allocCommit, memmapAdd] at he
    rcases List.mem_append.mp he with h' | h'
    · exact hInv.ptr_ne e h'
    · simp only [List.mem_cons, List.not_mem_nil, or_false] at h'
      subst h'
      exact hp0

theorem rFreeFlat_inv (st : Memmgr) (ptr : Nat) (hInv : Inv st) :
    Inv (rFreeFlat st ptr) := by
  by_cases h0 : ptr = 0
  · simpa [rFreeFlat, h0] using hInv
  · cases hget : memmapGet st.memmap ptr with
    | none => simpa [rFreeFlat, h0, hget] using hInv
    | some e =>
      obtain ⟨pfx, suf, hl, hpfx, hrem⟩ := memmapGet_split hget
      have hnd := hInv.nodup
      rw [hl] at hnd
      have hsplit := nodup_split pfx e suf hnd
      have hsum3 : sumSizes st.memmap =
          sumSizes pfx + e.alloc_size + sumSizes suf := by
        rw [hl, sumSizes_append]; simp [sumSizes]; omega
      have hlen3 : st.memmap.length = pfx.length + 1 + suf.length := by
        rw [hl]; simp; omega
      have hlt := hInv.size_lt
      have hct := hInv.count_lt
      simp only [rFreeFlat, if_neg h0, hget]
      constructor
      · simp only [hrem]
        rw [hInv.size_eq, sub64_eq_of_le (by omega) hlt, sumSizes_append]
        omega
      · simp only [hrem]
        rw [hInv.count_eq, sub64_eq_of_le (by omega) hct]
        simp
        omega
      · simp only [hrem]
        rw [sumSizes_append]
        omega
      · simp only [hrem, List.length_append]
        omega
      · simp only [hrem]
        exact hsplit.2.2
      · intro x hx
        simp only [hrem] at hx
        refine hInv.ptr_ne x ?_
        rw [hl]
        rcases List.mem_append.mp hx with h' | h'
        · exact List.mem_append.mpr (Or.inl h')
        · exact List.mem_append.mpr (Or.inr (List.mem_cons_of_mem e h'))

theorem wipeFlat_inv (st : Memmgr) (t : String) (hInv : Inv st) :
    Inv (wipeFlat st t) := by
  have h := wipeLoop_spec t st.memmap [] st (by simp)
    (by simpa using hInv.nodup) (by simpa using hInv.ptr_ne)
    (by simpa using hInv.size_eq) (by simpa using hInv.size_lt)
    (by simpa using hInv.count_eq) (by simpa using hInv.count_lt)
  have hsum := sumSizes_filter t st.memmap
  have hlen := length_filter_split t st.memmap
  have hlt := hInv.size_lt
  have hct := hInv.count_lt
  rw [wipeFlat, h]
  constructor
  · simp [sumSizes]
  · simp
  · simp only [List.nil_append]
    omega
  · simp only [List.nil_append]
    omega
  · simp only [List.nil_append]
    exact List.Nodup.sublist ((List.filter_sublist st.memmap).map MapElem.ptr)
      hInv.nodup
  · intro e he
    simp only [List.nil_append] at he
    exact hInv.ptr_ne e (List.mem_of_mem_filter he)

theorem inv_step (st : Memmgr) (op : Op) (hInv : Inv st)
    (hok : OpOKb st op = true) : Inv (applyOp st op) := by
  cases op with
  | alloc raw anc sizeofT n_elems tyName newPtr =>
    simp only [OpOKb, Bool.and_eq_true, decide_eq_true_eq,
      Option.isNone_iff_eq_none] at hok
    obtain ⟨⟨⟨hp0, hfresh⟩, hsum⟩, hlen⟩ := hok
    simp only [applyOp, allocCore]
    split_ifs with h1 h2
    · exact hInv
    · exact hInv
    · exact allocCommit_inv st (mul64 sizeofT n_elems) n_elems tyName newPtr
        raw hInv hp0 hfresh hsum hlen
  | free ptr => exact rFreeFlat_inv st ptr hInv
  | wipeOp t => exact wipeFlat_inv st t hInv

/-- C4: along any run of allocate / free / wipe operations from a consistent
state, after each operation the manager's `allocation_size` equals the sum
of `alloc_size` over the registry and `n_allocations` equals the number of
records (the full invariant `Inv` is preserved; any prefix of `ops` is also
a run, so the equality holds after each operation). -/
theorem counters_match_registry (st : Memmgr) (ops : List Op) (hInv : Inv st)
    (hok : SeqOKb st ops = true) :
    (runOps st ops).allocation_size = sumSizes (runOps st ops).memmap ∧
    (runOps st ops).n_allocations = (runOps st ops).memmap.length := by
  suffices h : Inv (runOps st ops) from ⟨h.size_eq, h.count_eq⟩
  induction ops generalizing st with
  | nil => exact hInv
  | cons op rest ih =>
    simp only [SeqOKb, Bool.and_eq_true] at hok
    simp only [runOps]
    exact ih (applyOp st op) (inv_step st op hInv hok.1) hok.2

/-- Witness for C4: allocate, free, then wipe on an empty manager. -/
theorem counters_match_registry_witness :
    (runOps exEmpty [.alloc false [] 4 10 "i" 1, .free 1,
        .wipeOp "i"]).allocation_size =
      sumSizes (runOps exEmpty [.alloc false [] 4 10 "i" 1, .free 1,
        .wipeOp "i"]).memmap ∧
    (runOps exEmpty [.alloc false [] 4 10 "i" 1, .free 1,
        .wipeOp "i"]).n_allocations =
      (runOps exEmpty [.alloc false [] 4 10 "i" 1, .free 1,
        .wipeOp "i"]).memmap.length :=
  counters_match_registry exEmpty _
    ⟨by decide, by decide, by decide, by decide, by decide, by decide⟩
    (by decide)

/-! ### Free fan-out and deep wipe on the hierarchy (claims C5, C9) -/

theorem rFreeChildren_eq_map (ptr : Nat) (cs : List Mgr) :
    rFreeChildren ptr cs = cs.map (rFreeTree ptr) := by
  induction cs with
  | nil => rfl
  | cons c rest ih => rw [rFreeChildren, ih]; rfl

theorem rFreeChildren_id (ptr : Nat) (cs : List Mgr)
    (h : ∀ c ∈ cs, rFreeTree ptr c = c) : rFreeChildren ptr cs = cs := by
  induction cs with
  | nil => rfl
  | cons c rest ih =>
    rw [rFreeChildren, h c (List.mem_cons_self c rest),
      ih (fun x hx => h x (List.mem_cons_of_mem c hx))]

theorem containsAny_eq_false {ptr : Nat} {cs : List Mgr}
    (h : containsAny ptr cs = false) : ∀ c ∈ cs, containsPtr ptr c = false := by
  induction cs with
  | nil => intro c hc; simp at hc
  | cons c rest ih =>
    rw [containsAny, Bool.or_eq_false_iff] at h
    intro x hx
    rcases List.mem_cons.mp hx with rfl | hx'
    · exact h.1
    · exact ih h.2 x hx'

/-- C5: `free(null)` is a no-op; for a non-null pointer absent from the own
registry, free invokes free on each child in iteration order (a child whose
subtree does not hold the pointer comes back unchanged by the third part, so
only the owner is affected); and when no registry in the subtree holds the
pointer the whole call is silently a no-op — free reports no error. -/
theorem free_fanout (m : Mgr) (ptr : Nat) (h0 : ptr ≠ 0) :
    rFreeTree 0 m = m ∧
    (memmapGet m.st.memmap ptr = none →
      rFreeTree ptr m = .node m.st (m.children.map (rFreeTree ptr))) ∧
    (containsPtr ptr m = false → rFreeTree ptr m = m) := by
  refine ⟨?_, ?_, ?_⟩
  · cases m with
    | node st cs => simp [rFreeTree]
  · intro hget
    cases m with
    | node st cs =>
      simp only [Mgr.st] at hget
      simp only [rFreeTree, if_neg h0, hget, Mgr.st, Mgr.children,
        rFreeChildren_eq_map]
  · refine Mgr.inductionOn
      (fun x => containsPtr ptr x = false → rFreeTree ptr x = x) ?_ m
    intro st cs ih hnc
    rw [containsPtr, Bool.or_eq_false_iff] at hnc
    have hget : memmapGet st.memmap ptr = none := by
      cases h : memmapGet st.memmap ptr with
      | none => rfl
      | some e =>
        have h1 := hnc.1
        rw [h] at h1
        simp at h1
    simp only [rFreeTree, if_neg h0, hget]
    rw [rFreeChildren_id ptr cs
      (fun c hc => ih c hc (containsAny_eq_false hnc.2 c hc))]

/-- A tree of one parent and one child, both with empty registries. -/
def exTree : Mgr := .node exEmpty [.node exEmpty []]

/-- Witness for C5 on a concrete two-node tree where pointer 5 is nowhere. -/
theorem free_fanout_witness :
    rFreeTree 0 exTree = exTree ∧ rFreeTree 5 exTree = exTree :=
  ⟨(free_fanout exTree 5 (by decide)).1,
   (free_fanout exTree 5 (by decide)).2.2
     (by simp [exTree, containsPtr, containsAny, memmapGet, exEmpty])⟩

/-- C9: `wipe<T>(deep=true)` wipes the own registry non-deeply and then each
direct child non-deeply; the children's own children — the grandchildren —
are passed through untouched, so no grandchild record is ever removed. -/
theorem deep_wipe_one_level (st : Memmgr) (cs : List Mgr) (t : String) :
    wipeTree true t (.node st cs) =
      .node (wipeFlat st t)
        (cs.map (fun c => .node (wipeFlat c.st t) c.children)) := by
  rw [wipeTree, if_pos rfl]
  congr 1
  induction cs with
  | nil => rfl
  | cons c rest ih =>
    cases c with
    | node cst ccs =>
      rw [wipeChildren, ih]
      simp [wipeTree, Mgr.st, Mgr.children]

end Rainman
